import Mathlib

/-!
Verification development for the wubi-table generator (Rust sources
`src/table.rs` and `src/main.rs`).  The Rust code is shallowly embedded:
byte strings become `List Nat` (each element a `u8` value), Rust `char`
becomes Lean `Char`, the dense `26^4`- and `CHAR_COUNT`-slot arrays become
total functions updated pointwise, `Result` becomes `Except`, and a Rust
`panic!` becomes `Option.none` of the embedding function.
-/

namespace WubiTable

/-- Error kinds of the code-table crate.  The enum definition itself is not
among the repository files; the variants are those referenced by
`src/table.rs` (`Empty`, `TooLongCode`, `NotValidChar`, `Invalid`) together
with the duplicate-detection kinds named by the specification (§7). -/
inductive ParseError where
  | Empty : ParseError
  | TooLongCode : List Nat → ParseError
  | NotValidChar : ParseError
  | Invalid : ParseError
  | DuplicateCode : ParseError
  | DuplicatePhrase : ParseError
deriving DecidableEq, Repr

/-- Loop of `TryFrom<&[u8]> for WubiCode` (`src/table.rs:20-32`): `len`
starts at `4` and is decremented before each letter is consumed, the letter
`a` contributes digit value 1, ..., `y` value 25, scaled by `26^len`. -/
def parseLoop : List Nat → Nat → Nat → Except ParseError Nat
  | [], _, index => .ok index
  | ch :: rest, len, index =>
    if 97 ≤ ch ∧ ch ≤ 121 then
      parseLoop rest (len - 1) (index + (ch - 97 + 1) * 26 ^ (len - 1))
    else
      .error .NotValidChar

/-- Embedding of `impl TryFrom<&[u8]> for WubiCode` (`src/table.rs:13-37`):
the resulting `Nat` is the `index` field of the `WubiCode`. -/
def tryFromBytes (value : List Nat) : Except ParseError Nat :=
  if value.length = 0 then .error .Empty
  else if 5 ≤ value.length then .error (.TooLongCode value)
  else parseLoop value 4 0

/-- Embedding of `impl From<WubiCode> for Vec<u8>` (`src/table.rs:47-88`),
the renderer of a code index back into letters.  The source panics when the
most significant base-26 digit is zero; the panic is `none`. -/
def render (index : Nat) : Option (List Nat) :=
  let byte1 := index / 26 ^ 3
  let rest1 := index % 26 ^ 3
  if byte1 = 0 then none
  else
    let b1 := byte1 - 1 + 97
    let byte2 := rest1 / 26 ^ 2
    let rest2 := rest1 % 26 ^ 2
    if byte2 = 0 then some [b1]
    else
      let b2 := byte2 - 1 + 97
      let byte3 := rest2 / 26 ^ 1
      let rest3 := rest2 % 26 ^ 1
      if byte3 = 0 then some [b1, b2]
      else
        let b3 := byte3 - 1 + 97
        let byte4 := rest3
        if byte4 = 0 then some [b1, b2, b3]
        else some [b1, b2, b3, byte4 - 1 + 97]

/-- Digit-extraction shorthand of spec §4.4: q k x = x div 26 to the k. -/
def q (k x : Nat) : Nat := x / 26 ^ k

/-- Embedding of `get_code_for_phrase` (`src/table.rs:314-345`): the
length-dependent splicing of the constituent characters' code indexes.
Lengths 0 and 1 panic in the source (`none` here); for length at least 4
the source reads the first three characters and then `chars.last()`. -/
def get_code_for_phrase (phrase : List Char) (char_code : Char → Nat) : Option Nat :=
  match phrase with
  | [] => none
  | [_] => none
  | [c1, c2] =>
    some (char_code c1 / 26 ^ 2 * 26 ^ 2 + char_code c2 / 26 ^ 2)
  | [c1, c2, c3] =>
    some (char_code c1 / 26 ^ 3 * 26 ^ 3 + char_code c2 / 26 ^ 3 * 26 ^ 2
      + char_code c3 / 26 ^ 2)
  | c1 :: c2 :: c3 :: c4 :: rest =>
    some (char_code c1 / 26 ^ 3 * 26 ^ 3 + char_code c2 / 26 ^ 3 * 26 ^ 2
      + char_code c3 / 26 ^ 3 * 26 ^ 1 + char_code (rest.getLastD c4) / 26 ^ 3)

/-- A byte string is a well-formed code: 1 to 4 letters, each in a..y. -/
def validCodeStr (s : List Nat) : Prop :=
  1 ≤ s.length ∧ s.length ≤ 4 ∧ ∀ b ∈ s, 97 ≤ b ∧ b ≤ 121

instance : DecidablePred validCodeStr := fun s => by
  unfold validCodeStr; infer_instance

/-- An index is a valid code: below `26^4`, most significant base-26 digit
non-zero, and no zero digit followed (towards lower significance) by a
non-zero digit. -/
def validIndex (i : Nat) : Prop :=
  26 ^ 3 ≤ i ∧ i < 26 ^ 4
    ∧ (i / 26 ^ 2 % 26 = 0 → i / 26 ^ 1 % 26 = 0)
    ∧ (i / 26 ^ 1 % 26 = 0 → i % 26 = 0)

/-- Modelled from the spec: row L = 2 of the §4.4 formula table exactly as
the specification writes it, q(c1,2)·B³ + q(c2,2)·B², for comparison with
the source's `get_code_for_phrase`. -/
def specRow2 (x y : Nat) : Nat := q 2 x * 26 ^ 3 + q 2 y * 26 ^ 2

/-- Lower bound of the accepted character range (`CHAR_MIN`). -/
def CHAR_MIN : Nat := 0x2eb3

/-- Upper bound of the accepted character range (`CHAR_MAX`). -/
def CHAR_MAX : Nat := 0x9fff

/-- The range check `(CHAR_MIN..=CHAR_MAX).contains(&ch)`. -/
def charInRange (ch : Char) : Prop := CHAR_MIN ≤ ch.toNat ∧ ch.toNat ≤ CHAR_MAX

instance : DecidablePred charInRange := fun ch => by
  unfold charInRange; infer_instance

/-- Entry of the code-table crate (`WubiEntry` as used by `src/table.rs`):
a phrase together with its code index. -/
structure WubiEntry where
  phrase : List Char
  wubi_code : Nat

/-- Embedding of `FullCodeTable` (`src/table.rs:97-139`): the dense
`code_to_phrases` array is a total function on indexes, the hash map
`phrase_to_code` a partial function on phrases. -/
structure FullCodeTable where
  code_to_phrases : Nat → List (List Char)
  phrase_to_code : List Char → Option Nat

/-- Embedding of `FullCodeTable::new` (`src/table.rs:103-113`). -/
def FullCodeTable.new : FullCodeTable where
  code_to_phrases := fun _ => []
  phrase_to_code := fun _ => none

/-- Embedding of `FullCodeTable::insert` (`src/table.rs:127-138`).  When the
phrase is already present the source prints the phrase and panics; the
panic is `none`.  Otherwise the phrase-to-code map gains the entry and the
phrase is appended to the code's phrase list. -/
def FullCodeTable.insert (t : FullCodeTable) (entry : WubiEntry) : Option FullCodeTable :=
  match t.phrase_to_code entry.phrase with
  | some _ => none
  | none =>
    some { phrase_to_code :=
             fun p => if p = entry.phrase then some entry.wubi_code else t.phrase_to_code p
           code_to_phrases :=
             fun c => if c = entry.wubi_code
               then t.code_to_phrases c ++ [entry.phrase]
               else t.code_to_phrases c }

/-- Embedding of `SimplifiedCodeTable` (`src/table.rs:151-214`): both dense
arrays become total functions (`char_to_code` is read through the range
check of `code_of_char`, which mirrors the `ch - CHAR_MIN` offset access). -/
structure SimplifiedCodeTable where
  code_to_char : Nat → Option Char
  char_to_code : Char → List Nat

/-- Embedding of `SimplifiedCodeTable::new` (`src/table.rs:156-166`). -/
def SimplifiedCodeTable.new : SimplifiedCodeTable where
  code_to_char := fun _ => none
  char_to_code := fun _ => []

/-- Embedding of `SimplifiedCodeTable::code_of_char` (`src/table.rs:193-198`). -/
def SimplifiedCodeTable.code_of_char (t : SimplifiedCodeTable) (ch : Char) :
    Option (List Nat) :=
  if charInRange ch then some (t.char_to_code ch) else none

/-- Embedding of `SimplifiedCodeTable::insert` (`src/table.rs:175-191`).
The source first writes `Some(ch)` into `code_to_char[code]` (after the
duplicate check) and only then range-checks `ch`; on an out-of-range `ch`
the write has already happened and `NotValidChar` is returned.  Pushing a
fourth code onto the capacity-3 `ArrayVec` panics (`none`).  The result
pairs the post-call table with the returned error, `none` meaning `Ok`. -/
def SimplifiedCodeTable.insert (t : SimplifiedCodeTable) (code : Nat) (ch : Char) :
    Option (SimplifiedCodeTable × Option ParseError) :=
  match t.code_to_char code with
  | some _ => some (t, some .Invalid)
  | none =>
    let t1 : SimplifiedCodeTable :=
      { t with code_to_char := fun c => if c = code then some ch else t.code_to_char c }
    if charInRange ch then
      if 3 ≤ (t1.char_to_code ch).length then none
      else
        some ({ t1 with char_to_code :=
                  fun x => if x = ch then t1.char_to_code x ++ [code] else t1.char_to_code x },
              none)
    else
      some (t1, some .NotValidChar)

/-- States of the simplified table reachable from `new` by a sequence of
`insert` calls whose characters lie in the accepted range; a call that
panics yields no successor state. -/
inductive SimplifiedReach : SimplifiedCodeTable → Prop where
  | new : SimplifiedReach SimplifiedCodeTable.new
  | step {t t' : SimplifiedCodeTable} {code : Nat} {ch : Char} {e : Option ParseError} :
      SimplifiedReach t → charInRange ch →
      t.insert code ch = some (t', e) → SimplifiedReach t'

/-- Aggregate `Table` (`src/table.rs:222-230`). -/
structure Table where
  simplified : SimplifiedCodeTable
  full : FullCodeTable

/-- Per-code body of `Table::reverse_filtered_full_table`
(`src/table.rs:255-273`): when the simplified table holds a character `s`
at this code, the stored phrase list is run through
`skip_while(phrase != s.to_string())`; otherwise it is kept whole. -/
def Table.filteredPhrasesAt (t : Table) (code : Nat) : List (List Char) :=
  match t.simplified.code_to_char code with
  | some s => (t.full.code_to_phrases code).dropWhile (fun p => p ≠ [s])
  | none => t.full.code_to_phrases code

/-- Modelled from the spec: the overlap-filter rule of §4.6 as the
specification words it — drop from the phrase list every single-character
phrase equal to the simplified character, keep everything else in stored
order.  Stated for comparison with the source's `Table.filteredPhrasesAt`. -/
def Table.specFilteredPhrasesAt (t : Table) (code : Nat) : List (List Char) :=
  match t.simplified.code_to_char code with
  | some s => (t.full.code_to_phrases code).filter (fun p => p ≠ [s])
  | none => t.full.code_to_phrases code

/-- Dense array size `26^4` (`INDEX_UPPER_BOUND` in `src/table.rs:6`). -/
def INDEX_UPPER_BOUND : Nat := 26 ^ 4

/-- Embedding of `Table::reverse_simplified_table` (`src/table.rs:232-243`):
every populated `code_to_char` slot in ascending index order. -/
def Table.simplifiedPairs (t : Table) : List (Nat × Char) :=
  (List.range INDEX_UPPER_BOUND).filterMap
    (fun i => (t.simplified.code_to_char i).map (fun ch => (i, ch)))

/-- Embedding of `Table::reverse_filtered_full_table` (`src/table.rs:255-273`)
as a list: ascending index order, codes whose filtered phrase list is empty
are skipped. -/
def Table.filteredFullPairs (t : Table) : List (Nat × List (List Char)) :=
  (List.range INDEX_UPPER_BOUND).filterMap
    (fun i =>
      let ps := t.filteredPhrasesAt i
      if ps = [] then none else some (i, ps))

/-- Modelled from the spec: the §4.6 forward-table merge of Streams A
and B is not among the repository files (no caller of `Table` is in src/).
Per code, the payload list is the simplified character as a one-character
string, if any, followed by the filtered full phrases (the stream-B filter
is the source's `Table.filteredPhrasesAt`). -/
def Table.forwardPayloadsAt (t : Table) (code : Nat) : List (List Char) :=
  ((t.simplified.code_to_char code).map (fun ch => [ch])).toList
    ++ t.filteredPhrasesAt code

/-- Modelled from the spec: the forward-table pair stream, every
`(code, payload)` pair in ascending code order (§4.6). -/
def Table.forwardPairs (t : Table) : List (Nat × List Char) :=
  (List.range INDEX_UPPER_BOUND).flatMap
    (fun i => (t.forwardPayloadsAt i).map (fun payload => (i, payload)))

/-- Modelled from the spec: one line of the mobile forward table
(`wb_nc_ios_table.txt`, §4.6), the rendered code, an equals sign, and the
payload. -/
def iosLine (code : Nat) (payload : List Char) : List Char :=
  ((render code).getD []).map Char.ofNat ++ '=' :: payload

/-- Modelled from the spec: the mobile forward table emitter is not among
the repository files; it writes one `"<code>=<payload>"` line per forward
pair, in stream order (§4.6). -/
def Table.iosOutput (t : Table) : List (List Char) :=
  t.forwardPairs.map (fun cp => iosLine cp.1 cp.2)

end WubiTable

namespace MainRs

/-- Entry type of `src/main.rs:16-19`: a phrase and a code, both held as
byte strings (`String` and `Vec<u8>`); bytes are embedded as `Nat`. -/
structure WubiEntry where
  phrase : List Nat
  wubi_code : List Nat
deriving DecidableEq, Repr

/-- Byte-wise lexicographic strict order, the order of Rust's `Ord` on
`String`/`[u8]`: a proper prefix precedes any extension. -/
def lexLt : List Nat → List Nat → Bool
  | [], [] => false
  | [], _ :: _ => true
  | _ :: _, [] => false
  | a :: l1, b :: l2 => if a < b then true else if b < a then false else lexLt l1 l2

/-- The comparator of `write_reverse_table` (`src/main.rs:191-195`) in
le-form: `a` may precede `b` when `a.phrase.cmp(&b.phrase)
.then(a.wubi_code.len().cmp(&b.wubi_code.len()))` is not `Greater`. -/
def cmpLE (a b : WubiEntry) : Bool :=
  if a.phrase = b.phrase then a.wubi_code.length ≤ b.wubi_code.length
  else lexLt a.phrase b.phrase

/-- Writer loop of `write_reverse_table` (`src/main.rs:197-218`): `last` is
the last written entry, the pending line holds the current key and its
codes so far.  A new phrase flushes the pending line and starts a new one;
an entry equal to `last` in both fields is skipped; an entry with the same
phrase but a new code appends the code and becomes `last`. -/
def revLoop : List WubiEntry → WubiEntry → List Nat × List (List Nat) →
    List (List Nat × List (List Nat))
  | [], _, cur => [cur]
  | e :: rest, last, cur =>
    if e.phrase ≠ last.phrase then
      cur :: revLoop rest e (e.phrase, [e.wubi_code])
    else if e.wubi_code = last.wubi_code then
      revLoop rest last cur
    else
      revLoop rest e (cur.1, cur.2 ++ [e.wubi_code])

/-- Embedding of `WubiTable::write_reverse_table` (`src/main.rs:190-220`)
at the line level: the entries are stably sorted by phrase then code
length, and the writer loop groups them into lines of one key followed by
its codes. -/
def write_reverse_table (entries : List WubiEntry) :
    List (List Nat × List (List Nat)) :=
  match List.mergeSort entries cmpLE with
  | [] => []
  | first :: rest => revLoop rest first (first.phrase, [first.wubi_code])

/-- Byte content of one reverse-table line: the key, then a space before
each code (`src/main.rs:200-216`). -/
def renderRevLine (line : List Nat × List (List Nat)) : List Nat :=
  line.1 ++ line.2.flatMap (fun code => 32 :: code)

/-- Full byte output of `write_reverse_table`: lines joined by newlines
with one trailing newline; an empty entry list writes nothing. -/
def write_reverse_table_bytes (entries : List WubiEntry) : List Nat :=
  match write_reverse_table entries with
  | [] => []
  | lines => List.intercalate [10] (lines.map renderRevLine) ++ [10]

end MainRs

/-!
Theorems.  The helper lemmas evaluate the parser and renderer on each of
the four possible code lengths.
-/

namespace WubiTable

lemma tryFromBytes_cons (a : Nat) (rest : List Nat) (hlen : rest.length ≤ 3) :
    tryFromBytes (a :: rest) = parseLoop (a :: rest) 4 0 := by
  simp only [tryFromBytes, List.length_cons]
  rw [if_neg (by omega), if_neg (by omega)]

lemma parseLoop_step (a : Nat) (rest : List Nat) (idx len : Nat) (h1 : 97 ≤ a)
    (h2 : a ≤ 121) :
    parseLoop (a :: rest) len idx
      = parseLoop rest (len - 1) (idx + (a - 96) * 26 ^ (len - 1)) := by
  have h : a - 97 + 1 = a - 96 := by omega
  simp only [parseLoop]
  rw [if_pos ⟨h1, h2⟩, h]

lemma tryFrom_eval1 (a : Nat) (h1 : 97 ≤ a) (h2 : a ≤ 121) :
    tryFromBytes [a] = .ok ((a - 96) * 26 ^ 3) := by
  rw [tryFromBytes_cons a [] (by simp), parseLoop_step a [] 0 4 h1 h2]
  simp [parseLoop]

lemma tryFrom_eval2 (a b : Nat) (h1 : 97 ≤ a) (h2 : a ≤ 121) (h3 : 97 ≤ b) (h4 : b ≤ 121) :
    tryFromBytes [a, b] = .ok ((a - 96) * 26 ^ 3 + (b - 96) * 26 ^ 2) := by
  rw [tryFromBytes_cons a [b] (by simp), parseLoop_step a [b] 0 4 h1 h2,
    parseLoop_step b [] _ _ h3 h4]
  simp [parseLoop]

lemma tryFrom_eval3 (a b c : Nat) (h1 : 97 ≤ a) (h2 : a ≤ 121) (h3 : 97 ≤ b) (h4 : b ≤ 121)
    (h5 : 97 ≤ c) (h6 : c ≤ 121) :
    tryFromBytes [a, b, c]
      = .ok ((a - 96) * 26 ^ 3 + (b - 96) * 26 ^ 2 + (c - 96) * 26 ^ 1) := by
  rw [tryFromBytes_cons a [b, c] (by simp), parseLoop_step a [b, c] 0 4 h1 h2,
    parseLoop_step b [c] _ _ h3 h4, parseLoop_step c [] _ _ h5 h6]
  simp [parseLoop]

lemma tryFrom_eval4 (a b c d : Nat) (h1 : 97 ≤ a) (h2 : a ≤ 121) (h3 : 97 ≤ b) (h4 : b ≤ 121)
    (h5 : 97 ≤ c) (h6 : c ≤ 121) (h7 : 97 ≤ d) (h8 : d ≤ 121) :
    tryFromBytes [a, b, c, d]
      = .ok ((a - 96) * 26 ^ 3 + (b - 96) * 26 ^ 2 + (c - 96) * 26 ^ 1
          + (d - 96) * 26 ^ 0) := by
  rw [tryFromBytes_cons a [b, c, d] (by simp), parseLoop_step a [b, c, d] 0 4 h1 h2,
    parseLoop_step b [c, d] _ _ h3 h4, parseLoop_step c [d] _ _ h5 h6,
    parseLoop_step d [] _ _ h7 h8]
  simp [parseLoop]

lemma tryFrom_ok_cases (s : List Nat) (i : Nat) (h : tryFromBytes s = .ok i) :
    (∃ a, 97 ≤ a ∧ a ≤ 121 ∧ s = [a] ∧ i = (a - 96) * 26 ^ 3)
    ∨ (∃ a b, (97 ≤ a ∧ a ≤ 121) ∧ (97 ≤ b ∧ b ≤ 121) ∧ s = [a, b]
        ∧ i = (a - 96) * 26 ^ 3 + (b - 96) * 26 ^ 2)
    ∨ (∃ a b c, (97 ≤ a ∧ a ≤ 121) ∧ (97 ≤ b ∧ b ≤ 121) ∧ (97 ≤ c ∧ c ≤ 121)
        ∧ s = [a, b, c] ∧ i = (a - 96) * 26 ^ 3 + (b - 96) * 26 ^ 2 + (c - 96) * 26 ^ 1)
    ∨ (∃ a b c d, (97 ≤ a ∧ a ≤ 121) ∧ (97 ≤ b ∧ b ≤ 121) ∧ (97 ≤ c ∧ c ≤ 121)
        ∧ (97 ≤ d ∧ d ≤ 121) ∧ s = [a, b, c, d]
        ∧ i = (a - 96) * 26 ^ 3 + (b - 96) * 26 ^ 2 + (c - 96) * 26 ^ 1
            + (d - 96) * 26 ^ 0) := by
  match s with
  | [] => simp [tryFromBytes] at h
  | a :: b :: c :: d :: e :: rest =>
    simp only [tryFromBytes, List.length_cons] at h
    rw [if_neg (by omega), if_pos (by omega)] at h
    exact Except.noConfusion h
  | [a] =>
    rw [tryFromBytes_cons a [] (by simp)] at h
    simp only [parseLoop] at h
    split at h
    · rename_i hc
      injection h with hi
      refine Or.inl ⟨a, hc.1, hc.2, rfl, ?_⟩
      norm_num at hi ⊢
      omega
    · exact Except.noConfusion h
  | [a, b] =>
    rw [tryFromBytes_cons a [b] (by simp)] at h
    simp only [parseLoop] at h
    split at h
    · rename_i hc1
      split at h
      · rename_i hc2
        injection h with hi
        refine Or.inr (Or.inl ⟨a, b, hc1, hc2, rfl, ?_⟩)
        norm_num at hi ⊢
        omega
      · exact Except.noConfusion h
    · exact Except.noConfusion h
  | [a, b, c] =>
    rw [tryFromBytes_cons a [b, c] (by simp)] at h
    simp only [parseLoop] at h
    split at h
    · rename_i hc1
      split at h
      · rename_i hc2
        split at h
        · rename_i hc3
          injection h with hi
          refine Or.inr (Or.inr (Or.inl ⟨a, b, c, hc1, hc2, hc3, rfl, ?_⟩))
          norm_num at hi ⊢
          omega
        · exact Except.noConfusion h
      · exact Except.noConfusion h
    · exact Except.noConfusion h
  | [a, b, c, d] =>
    rw [tryFromBytes_cons a [b, c, d] (by simp)] at h
    simp only [parseLoop] at h
    split at h
    · rename_i hc1
      split at h
      · rename_i hc2
        split at h
        · rename_i hc3
          split at h
          · rename_i hc4
            injection h with hi
            refine Or.inr (Or.inr (Or.inr ⟨a, b, c, d, hc1, hc2, hc3, hc4, rfl, ?_⟩))
            norm_num at hi ⊢
            omega
          · exact Except.noConfusion h
        · exact Except.noConfusion h
      · exact Except.noConfusion h
    · exact Except.noConfusion h

lemma render_eval1 (d3 : Nat) (h3 : 1 ≤ d3) (h3' : d3 ≤ 25) :
    render (d3 * 26 ^ 3) = some [d3 + 96] := by
  simp only [render]
  split_ifs <;> simp_all

lemma render_eval2 (d3 d2 : Nat) (h3 : 1 ≤ d3) (h3' : d3 ≤ 25) (h2 : 1 ≤ d2) (h2' : d2 ≤ 25) :
    render (d3 * 26 ^ 3 + d2 * 26 ^ 2) = some [d3 + 96, d2 + 96] := by
  simp only [render]
  split_ifs <;> simp_all <;> omega

lemma render_eval3 (d3 d2 d1 : Nat) (h3 : 1 ≤ d3) (h3' : d3 ≤ 25) (h2 : 1 ≤ d2)
    (h2' : d2 ≤ 25) (h1 : 1 ≤ d1) (h1' : d1 ≤ 25) :
    render (d3 * 26 ^ 3 + d2 * 26 ^ 2 + d1 * 26 ^ 1) = some [d3 + 96, d2 + 96, d1 + 96] := by
  simp only [render]
  split_ifs <;> simp_all <;> omega

lemma render_eval4 (d3 d2 d1 d0 : Nat) (h3 : 1 ≤ d3) (h3' : d3 ≤ 25) (h2 : 1 ≤ d2)
    (h2' : d2 ≤ 25) (h1 : 1 ≤ d1) (h1' : d1 ≤ 25) (h0 : 1 ≤ d0) (h0' : d0 ≤ 25) :
    render (d3 * 26 ^ 3 + d2 * 26 ^ 2 + d1 * 26 ^ 1 + d0)
      = some [d3 + 96, d2 + 96, d1 + 96, d0 + 96] := by
  simp only [render]
  split_ifs <;> simp_all <;> omega

lemma valid_shape (s : List Nat) (hv : validCodeStr s) :
    (∃ a, s = [a]) ∨ (∃ a b, s = [a, b]) ∨ (∃ a b c, s = [a, b, c])
      ∨ (∃ a b c d, s = [a, b, c, d]) := by
  obtain ⟨h1, h4, _⟩ := hv
  match s with
  | [] => simp at h1
  | [a] => exact Or.inl ⟨a, rfl⟩
  | [a, b] => exact Or.inr (Or.inl ⟨a, b, rfl⟩)
  | [a, b, c] => exact Or.inr (Or.inr (Or.inl ⟨a, b, c, rfl⟩))
  | [a, b, c, d] => exact Or.inr (Or.inr (Or.inr ⟨a, b, c, d, rfl⟩))
  | a :: b :: c :: d :: e :: rest => simp at h4

/-- C10: every index produced by a successful parse lies in
`[26^3, 26^4)`, so every dense-array access at such an index is in
bounds. -/
theorem index_bounds_of_parse (s : List Nat) (i : Nat) (h : tryFromBytes s = .ok i) :
    26 ^ 3 ≤ i ∧ i < 26 ^ 4 := by
  rcases tryFrom_ok_cases s i h with ⟨a, h1, h2, _, hi⟩
    | ⟨a, b, h1, h2, _, hi⟩ | ⟨a, b, c, h1, h2, h3, _, hi⟩
    | ⟨a, b, c, d, h1, h2, h3, h4, _, hi⟩ <;>
  · subst hi
    norm_num
    omega

theorem index_bounds_of_parse_witness :
    26 ^ 3 ≤ 17576 ∧ 17576 < 26 ^ 4 :=
  index_bounds_of_parse [97] 17576 rfl

/-- C3: the three concrete §8 phrase-encoder vectors.  The constituent
codes 19010, 92126, 165242, 238358 and 311474 are the parses of abcd,
efgh, ijkl, mnop and qrst; the results are the parses of abef, aeij and
aeiq. -/
theorem phrase_encoder_vectors :
    tryFromBytes [97, 98, 99, 100] = .ok 19010
    ∧ tryFromBytes [101, 102, 103, 104] = .ok 92126
    ∧ tryFromBytes [105, 106, 107, 108] = .ok 165242
    ∧ tryFromBytes [109, 110, 111, 112] = .ok 238358
    ∧ tryFromBytes [113, 114, 115, 116] = .ok 311474
    ∧ get_code_for_phrase ['甲', '乙'] (fun c => if c = '甲' then 19010 else 92126)
        = some 19064
    ∧ tryFromBytes [97, 98, 101, 102] = .ok 19064
    ∧ get_code_for_phrase ['一', '二', '三']
        (fun c => if c = '一' then 19010 else if c = '二' then 92126 else 165242)
        = some 21200
    ∧ tryFromBytes [97, 101, 105, 106] = .ok 21200
    ∧ get_code_for_phrase ['一', '二', '三', '四', '五']
        (fun c => if c = '一' then 19010 else if c = '二' then 92126
          else if c = '三' then 165242 else if c = '四' then 238358 else 311474)
        = some 21207
    ∧ tryFromBytes [97, 101, 105, 113] = .ok 21207 :=
  ⟨rfl, rfl, rfl, rfl, rfl, rfl, rfl, rfl, rfl, rfl, rfl⟩

/-- C4: round trip of the code encoder: rendering a parsed valid code
string gives the string back, and parsing the rendering of a valid index
gives the index back. -/
theorem code_roundtrip :
    (∀ s, validCodeStr s → ∃ i, tryFromBytes s = .ok i ∧ render i = some s)
    ∧ (∀ i, validIndex i → ∃ s, render i = some s ∧ tryFromBytes s = .ok i) := by
  constructor
  · intro s hv
    have hmem := hv.2.2
    rcases valid_shape s hv with ⟨a, rfl⟩ | ⟨a, b, rfl⟩ | ⟨a, b, c, rfl⟩ | ⟨a, b, c, d, rfl⟩
    · obtain ⟨ha1, ha2⟩ := hmem a (by simp)
      refine ⟨(a - 96) * 26 ^ 3, tryFrom_eval1 a ha1 ha2, ?_⟩
      rw [render_eval1 (a - 96) (by omega) (by omega)]
      simp only [Option.some.injEq, List.cons.injEq, and_true]
      omega
    · obtain ⟨ha1, ha2⟩ := hmem a (by simp)
      obtain ⟨hb1, hb2⟩ := hmem b (by simp)
      refine ⟨_, tryFrom_eval2 a b ha1 ha2 hb1 hb2, ?_⟩
      rw [render_eval2 (a - 96) (b - 96) (by omega) (by omega) (by omega) (by omega)]
      simp only [Option.some.injEq, List.cons.injEq, and_true]
      omega
    · obtain ⟨ha1, ha2⟩ := hmem a (by simp)
      obtain ⟨hb1, hb2⟩ := hmem b (by simp)
      obtain ⟨hc1, hc2⟩ := hmem c (by simp)
      refine ⟨_, tryFrom_eval3 a b c ha1 ha2 hb1 hb2 hc1 hc2, ?_⟩
      rw [render_eval3 (a - 96) (b - 96) (c - 96) (by omega) (by omega) (by omega) (by omega)
        (by omega) (by omega)]
      simp only [Option.some.injEq, List.cons.injEq, and_true]
      omega
    · obtain ⟨ha1, ha2⟩ := hmem a (by simp)
      obtain ⟨hb1, hb2⟩ := hmem b (by simp)
      obtain ⟨hc1, hc2⟩ := hmem c (by simp)
      obtain ⟨hd1, hd2⟩ := hmem d (by simp)
      have he : (d - 96) * 26 ^ 0 = d - 96 := by norm_num
      refine ⟨_, tryFrom_eval4 a b c d ha1 ha2 hb1 hb2 hc1 hc2 hd1 hd2, ?_⟩
      rw [he, render_eval4 (a - 96) (b - 96) (c - 96) (d - 96) (by omega) (by omega) (by omega)
        (by omega) (by omega) (by omega) (by omega) (by omega)]
      simp only [Option.some.injEq, List.cons.injEq, and_true]
      omega
  · intro i hv
    obtain ⟨hlo, hhi, hz2, hz1⟩ := hv
    set d3 := i / 26 ^ 3 with hd3
    set d2 := i / 26 ^ 2 % 26 with hd2
    set d1 := i / 26 ^ 1 % 26 with hd1
    set d0 := i % 26 with hd0
    have hdec : i = d3 * 26 ^ 3 + d2 * 26 ^ 2 + d1 * 26 ^ 1 + d0 := by omega
    have hb3 : 1 ≤ d3 ∧ d3 ≤ 25 := by omega
    have hb2 : d2 ≤ 25 := by omega
    have hb1 : d1 ≤ 25 := by omega
    have hb0 : d0 ≤ 25 := by omega
    rcases Nat.eq_zero_or_pos d2 with h2z | h2p
    · have h1z : d1 = 0 := hz2 h2z
      have h0z : d0 = 0 := hz1 h1z
      refine ⟨[d3 + 96], ?_, ?_⟩
      · have h : i = d3 * 26 ^ 3 := by omega
        rw [h, render_eval1 d3 hb3.1 hb3.2]
      · rw [tryFrom_eval1 (d3 + 96) (by omega) (by omega)]
        simp only [Except.ok.injEq]
        omega
    · rcases Nat.eq_zero_or_pos d1 with h1z | h1p
      · have h0z : d0 = 0 := hz1 h1z
        refine ⟨[d3 + 96, d2 + 96], ?_, ?_⟩
        · have h : i = d3 * 26 ^ 3 + d2 * 26 ^ 2 := by omega
          rw [h, render_eval2 d3 d2 hb3.1 hb3.2 h2p hb2]
        · rw [tryFrom_eval2 (d3 + 96) (d2 + 96) (by omega) (by omega) (by omega) (by omega)]
          simp only [Except.ok.injEq]
          omega
      · rcases Nat.eq_zero_or_pos d0 with h0z | h0p
        · refine ⟨[d3 + 96, d2 + 96, d1 + 96], ?_, ?_⟩
          · have h : i = d3 * 26 ^ 3 + d2 * 26 ^ 2 + d1 * 26 ^ 1 := by omega
            rw [h, render_eval3 d3 d2 d1 hb3.1 hb3.2 h2p hb2 h1p hb1]
          · rw [tryFrom_eval3 (d3 + 96) (d2 + 96) (d1 + 96) (by omega) (by omega) (by omega)
              (by omega) (by omega) (by omega)]
            simp only [Except.ok.injEq]
            omega
        · refine ⟨[d3 + 96, d2 + 96, d1 + 96, d0 + 96], ?_, ?_⟩
          · rw [hdec, render_eval4 d3 d2 d1 d0 hb3.1 hb3.2 h2p hb2 h1p hb1 h0p hb0]
          · rw [tryFrom_eval4 (d3 + 96) (d2 + 96) (d1 + 96) (d0 + 96) (by omega) (by omega)
              (by omega) (by omega) (by omega) (by omega) (by omega) (by omega)]
            simp only [Except.ok.injEq]
            omega

end WubiTable

namespace WubiTable

lemma dropWhile_ne_of_not_mem {α : Type} [DecidableEq α] (x : α) (l : List α)
    (h : x ∉ l) : l.dropWhile (fun p => p ≠ x) = [] := by
  induction l with
  | nil => rfl
  | cons a l ih =>
    have hax : a ≠ x := fun he => h (he ▸ List.mem_cons_self a l)
    rw [List.dropWhile_cons, if_pos (by simpa using hax)]
    exact ih (fun hm => h (List.mem_cons_of_mem a hm))

lemma dropWhile_ne_append (x : α) [DecidableEq α] (pre suf : List α)
    (hpre : ∀ p ∈ pre, p ≠ x) :
    (pre ++ x :: suf).dropWhile (fun p => p ≠ x) = x :: suf := by
  induction pre with
  | nil =>
    rw [List.nil_append, List.dropWhile_cons]
    simp
  | cons a pre ih =>
    rw [List.cons_append, List.dropWhile_cons]
    have hax : a ≠ x := hpre a (List.mem_cons_self a pre)
    rw [if_pos (by simpa using hax)]
    exact ih (fun p hp => hpre p (List.mem_cons_of_mem a hp))

/-- C1 (amended): the filtered full forward view at a code with no
simplified character passes every stored phrase unchanged; at a code with
simplified character s the view is the suffix of the stored list beginning
at the first phrase equal to s (that single-character phrase itself is
retained, everything before it is dropped), and is empty when s does not
occur among the stored phrases. -/
theorem overlap_filter_amended :
    (∀ (t : Table) (c : Nat), t.simplified.code_to_char c = none →
        t.filteredPhrasesAt c = t.full.code_to_phrases c)
    ∧ (∀ (t : Table) (c : Nat) (s : Char), t.simplified.code_to_char c = some s →
        (([s] : List Char) ∉ t.full.code_to_phrases c → t.filteredPhrasesAt c = [])
        ∧ ∀ pre suf, t.full.code_to_phrases c = pre ++ ([s] : List Char) :: suf →
            (∀ p ∈ pre, p ≠ ([s] : List Char)) →
            t.filteredPhrasesAt c = ([s] : List Char) :: suf) := by
  refine ⟨fun t c h => ?_, fun t c s h => ⟨fun hnm => ?_, fun pre suf hdec hpre => ?_⟩⟩
  · simp only [Table.filteredPhrasesAt, h]
  · simp only [Table.filteredPhrasesAt, h]
    exact dropWhile_ne_of_not_mem _ _ hnm
  · simp only [Table.filteredPhrasesAt, h, hdec]
    exact dropWhile_ne_append _ pre suf hpre

/-- C1 (counterexample): on the spec §8 example, Simplified mapping the
code of a to X and Full mapping it to the stored list X, XY, the source
filter keeps the single-character phrase X while the spec rule drops it. -/
theorem overlap_filter_counterexample :
    Table.filteredPhrasesAt
        ⟨⟨fun c => if c = 17576 then some 'X' else none, fun _ => []⟩,
          ⟨fun c => if c = 17576 then [['X'], ['X', 'Y']] else [], fun _ => none⟩⟩ 17576
      = [['X'], ['X', 'Y']]
    ∧ Table.specFilteredPhrasesAt
        ⟨⟨fun c => if c = 17576 then some 'X' else none, fun _ => []⟩,
          ⟨fun c => if c = 17576 then [['X'], ['X', 'Y']] else [], fun _ => none⟩⟩ 17576
      = [['X', 'Y']]
    ∧ ([['X'], ['X', 'Y']] : List (List Char)) ≠ [['X', 'Y']] :=
  ⟨rfl, rfl, by decide⟩

/-- C2 (counterexample): at the concrete §8 charcodes (abcd and efgh,
indexes 19010 and 92126), the source encoder yields 19064 (abef) while the
§4.4 row-2 formula as written yields 584064, which is not even a valid
index. -/
theorem phrase_formula_counterexample :
    get_code_for_phrase ['甲', '乙'] (fun c => if c = '甲' then 19010 else 92126)
        = some 19064
    ∧ specRow2 19010 92126 = 584064
    ∧ get_code_for_phrase ['甲', '乙'] (fun c => if c = '甲' then 19010 else 92126)
        ≠ some (specRow2 19010 92126) :=
  ⟨rfl, rfl, by decide⟩

/-- C2 (amended): the composite index follows the §4.4 table with
corrected scale factors: for L = 2 it is q(c1,2)·26² + q(c2,2) (not
q(c1,2)·26³ + q(c2,2)·26²), for L = 3 it is q(c1,3)·26³ + q(c2,3)·26² +
q(c3,2), and for L ≥ 4 it is q(c1,3)·26³ + q(c2,3)·26² + q(c3,3)·26 +
q(c_last,3); for L = 2 the top two base-26 digits of the result are the
first two letters of c1 and the bottom two the first two letters of c2. -/
theorem phrase_formula_amended :
    (∀ (cc : Char → Nat) (c1 c2 : Char),
        get_code_for_phrase [c1, c2] cc = some (q 2 (cc c1) * 26 ^ 2 + q 2 (cc c2)))
    ∧ (∀ (cc : Char → Nat) (c1 c2 c3 : Char),
        get_code_for_phrase [c1, c2, c3] cc
          = some (q 3 (cc c1) * 26 ^ 3 + q 3 (cc c2) * 26 ^ 2 + q 2 (cc c3)))
    ∧ (∀ (cc : Char → Nat) (c1 c2 c3 c4 : Char) (rest : List Char),
        get_code_for_phrase (c1 :: c2 :: c3 :: c4 :: rest) cc
          = some (q 3 (cc c1) * 26 ^ 3 + q 3 (cc c2) * 26 ^ 2 + q 3 (cc c3) * 26 ^ 1
              + q 3 (cc (rest.getLastD c4))))
    ∧ (∀ (cc : Char → Nat) (c1 c2 : Char), cc c2 < 26 ^ 4 →
        ∀ r, get_code_for_phrase [c1, c2] cc = some r →
          r / 26 ^ 2 = q 2 (cc c1) ∧ r % 26 ^ 2 = q 2 (cc c2)) := by
  refine ⟨fun cc c1 c2 => rfl, fun cc c1 c2 c3 => rfl, fun cc c1 c2 c3 c4 rest => rfl,
    fun cc c1 c2 hlt r hr => ?_⟩
  simp only [get_code_for_phrase, Option.some.injEq, q] at hr ⊢
  subst hr
  constructor <;> omega

/-- C7 (amended): inserting under an already-populated simplified code
fails with ParseError.Invalid and leaves the table unchanged; inserting a
phrase already present in the full table panics (no error value is
returned at all); in both cases the existing entry is not overwritten. -/
theorem duplicate_detection_amended :
    (∀ (t : SimplifiedCodeTable) (code : Nat) (ch0 ch : Char),
        t.code_to_char code = some ch0 →
          t.insert code ch = some (t, some ParseError.Invalid))
    ∧ (∀ (t : FullCodeTable) (e : WubiEntry) (c : Nat),
        t.phrase_to_code e.phrase = some c → t.insert e = none) := by
  constructor
  · intro t code ch0 ch h
    simp only [SimplifiedCodeTable.insert, h]
  · intro t e c h
    simp only [FullCodeTable.insert, h]

/-- C7 (counterexample): a second distinct character under an occupied
simplified code yields ParseError.Invalid, not DuplicateCode, and a
duplicate phrase insertion into the full table panics instead of
returning a DuplicatePhrase error. -/
theorem duplicate_detection_counterexample :
    ((SimplifiedCodeTable.new.insert 17576 '一').bind
        (fun r => r.1.insert 17576 '二')).map (fun r => r.2)
      = some (some ParseError.Invalid)
    ∧ ParseError.Invalid ≠ ParseError.DuplicateCode
    ∧ (FullCodeTable.new.insert ⟨['甲'], 19010⟩).bind
        (fun t => t.insert ⟨['甲'], 19064⟩) = none :=
  ⟨rfl, by decide, rfl⟩

/-- C8 (counterexample): inserting the out-of-range character a from the
empty table fails with NotValidChar yet writes the character into
code_to_char, so the failing insert does not leave the structures
unchanged and the coupling invariant is broken in a reachable state. -/
theorem simplified_insert_unchecked_write_counterexample :
    ((SimplifiedCodeTable.new.insert 17576 'a').map
        (fun r => (r.2, r.1.code_to_char 17576, r.1.char_to_code 'a')))
      = some (some ParseError.NotValidChar, some 'a', ([] : List Nat))
    ∧ (some 'a' : Option Char) ≠ SimplifiedCodeTable.new.code_to_char 17576 :=
  ⟨rfl, by decide⟩

lemma insert_cases (t t' : SimplifiedCodeTable) (code : Nat) (ch : Char)
    (e : Option ParseError) (h : t.insert code ch = some (t', e)) :
    (∃ ch0, t.code_to_char code = some ch0 ∧ t' = t ∧ e = some .Invalid)
    ∨ (t.code_to_char code = none ∧ charInRange ch ∧ (t.char_to_code ch).length < 3
        ∧ e = none
        ∧ t' = ⟨fun c => if c = code then some ch else t.code_to_char c,
              fun x => if x = ch then t.char_to_code x ++ [code] else t.char_to_code x⟩)
    ∨ (t.code_to_char code = none ∧ ¬ charInRange ch ∧ e = some .NotValidChar
        ∧ t' = ⟨fun c => if c = code then some ch else t.code_to_char c,
              t.char_to_code⟩) := by
  unfold SimplifiedCodeTable.insert at h
  cases hcc : t.code_to_char code with
  | some ch0 =>
    rw [hcc] at h
    simp only [Option.some.injEq, Prod.mk.injEq] at h
    exact Or.inl ⟨ch0, rfl, h.1.symm, h.2.symm⟩
  | none =>
    rw [hcc] at h
    by_cases hir : charInRange ch
    · rw [if_pos hir] at h
      by_cases hlen : 3 ≤ (t.char_to_code ch).length
      · rw [if_pos hlen] at h
        exact Option.noConfusion h
      · rw [if_neg hlen] at h
        simp only [Option.some.injEq, Prod.mk.injEq] at h
        refine Or.inr (Or.inl ⟨rfl, hir, by omega, h.2.symm, ?_⟩)
        cases t
        exact h.1.symm
    · rw [if_neg hir] at h
      simp only [Option.some.injEq, Prod.mk.injEq] at h
      refine Or.inr (Or.inr ⟨rfl, hir, h.2.symm, ?_⟩)
      cases t
      exact h.1.symm

lemma insert_preserves_inv (t t' : SimplifiedCodeTable) (code : Nat) (ch : Char)
    (e : Option ParseError) (hr : charInRange ch)
    (h : t.insert code ch = some (t', e))
    (inv : ∀ c x, t.code_to_char c = some x ↔ c ∈ t.char_to_code x) :
    ∀ c x, t'.code_to_char c = some x ↔ c ∈ t'.char_to_code x := by
  rcases insert_cases t t' code ch e h with ⟨ch0, hcc, rfl, _⟩
    | ⟨hcc, hir, hlen, _, rfl⟩ | ⟨hcc, hnir, _, rfl⟩
  · exact inv
  · intro c x
    constructor
    · intro hcx
      simp only at hcx ⊢
      by_cases hc : c = code
      · subst hc
        rw [if_pos rfl] at hcx
        injection hcx with hx
        subst hx
        rw [if_pos rfl]
        exact List.mem_append.2 (Or.inr (by simp))
      · rw [if_neg hc] at hcx
        have hm := (inv c x).1 hcx
        by_cases hx : x = ch
        · subst hx
          rw [if_pos rfl]
          exact List.mem_append.2 (Or.inl hm)
        · rw [if_neg hx]
          exact hm
    · intro hcm
      simp only at hcm ⊢
      by_cases hx : x = ch
      · subst hx
        rw [if_pos rfl] at hcm
        rcases List.mem_append.1 hcm with hm | hm
        · have hct := (inv c x).2 hm
          by_cases hc : c = code
          · subst hc
            rw [hcc] at hct
            exact Option.noConfusion hct
          · rw [if_neg hc]
            exact hct
        · simp at hm
          subst hm
          rw [if_pos rfl]
      · rw [if_neg hx] at hcm
        have hct := (inv c x).2 hcm
        by_cases hc : c = code
        · subst hc
          rw [hcc] at hct
          exact Option.noConfusion hct
        · rw [if_neg hc]
          exact hct
  · exact absurd hr hnir

/-- C8 (amended): in every state reachable from the empty table by
inserts of in-range characters, code_to_char c = x holds iff c is in
char_to_codes x; every successful insert sets code_to_char and appends
the code to char_to_codes; an insert failing on an occupied code leaves
the table unchanged (an insert failing on an out-of-range character,
excluded here, modifies code_to_char, see the counterexample). -/
theorem simplified_invariant_amended :
    (∀ t, SimplifiedReach t → ∀ c x, t.code_to_char c = some x ↔ c ∈ t.char_to_code x)
    ∧ (∀ (t t' : SimplifiedCodeTable) (code : Nat) (ch : Char),
        t.insert code ch = some (t', none) →
          t'.code_to_char code = some ch
          ∧ t'.char_to_code ch = t.char_to_code ch ++ [code])
    ∧ (∀ (t : SimplifiedCodeTable) (code : Nat) (ch ch0 : Char),
        t.code_to_char code = some ch0 →
          t.insert code ch = some (t, some ParseError.Invalid)) := by
  refine ⟨?_, ?_, ?_⟩
  · intro t h
    induction h with
    | new => intro c x; simp [SimplifiedCodeTable.new]
    | step hre hr hins ih => exact insert_preserves_inv _ _ _ _ _ hr hins ih
  · intro t t' code ch h
    rcases insert_cases t t' code ch none h with ⟨ch0, hcc, rfl, he⟩
      | ⟨hcc, hir, hlen, _, rfl⟩ | ⟨hcc, hnir, he, rfl⟩
    · exact Option.noConfusion he
    · exact ⟨by simp, by simp⟩
    · exact Option.noConfusion he
  · intro t code ch ch0 h
    simp only [SimplifiedCodeTable.insert, h]

end WubiTable

namespace WubiTable

lemma lexLt_cons_iff (a b : Nat) (l1 l2 : List Nat) :
    (MainRs.lexLt (a :: l1) (b :: l2) = true)
      ↔ (a < b ∨ (a = b ∧ MainRs.lexLt l1 l2 = true)) := by
  simp only [MainRs.lexLt]
  split_ifs with hab hba
  · simp [hab]
  · have hne : a ≠ b := by omega
    simp [hab, hne]
  · have heq : a = b := by omega
    simp [hab, heq]

lemma lexLt_nil_cons (b : Nat) (l : List Nat) : MainRs.lexLt [] (b :: l) = true := rfl

lemma lexLt_nil_right (l : List Nat) : MainRs.lexLt l [] = false := by
  cases l <;> rfl

/-- C5: for any two successfully parsed code strings, the parsed indexes
compare as the byte strings compare lexicographically, a shorter code that
is a prefix of a longer one coming first; hence sorting by index and
sorting the rendered byte strings byte-wise give the same order. -/
theorem code_ordering (s1 s2 : List Nat) (i1 i2 : Nat)
    (h1 : tryFromBytes s1 = .ok i1) (h2 : tryFromBytes s2 = .ok i2) :
    i1 < i2 ↔ MainRs.lexLt s1 s2 = true := by
  rcases tryFrom_ok_cases s1 i1 h1 with ⟨a1, ha1, ha2, rfl, rfl⟩
    | ⟨a1, b1, ⟨ha1, ha2⟩, ⟨hb1, hb2⟩, rfl, rfl⟩
    | ⟨a1, b1, c1, ⟨ha1, ha2⟩, ⟨hb1, hb2⟩, ⟨hc1, hc2⟩, rfl, rfl⟩
    | ⟨a1, b1, c1, d1, ⟨ha1, ha2⟩, ⟨hb1, hb2⟩, ⟨hc1, hc2⟩, ⟨hd1, hd2⟩, rfl, rfl⟩ <;>
  rcases tryFrom_ok_cases s2 i2 h2 with ⟨a2, ha3, ha4, rfl, rfl⟩
    | ⟨a2, b2, ⟨ha3, ha4⟩, ⟨hb3, hb4⟩, rfl, rfl⟩
    | ⟨a2, b2, c2, ⟨ha3, ha4⟩, ⟨hb3, hb4⟩, ⟨hc3, hc4⟩, rfl, rfl⟩
    | ⟨a2, b2, c2, d2, ⟨ha3, ha4⟩, ⟨hb3, hb4⟩, ⟨hc3, hc4⟩, ⟨hd3, hd4⟩, rfl, rfl⟩ <;>
  · simp only [lexLt_cons_iff, lexLt_nil_cons, lexLt_nil_right, Bool.false_eq_true,
      and_false, or_false, and_true, eq_self_iff_true]
    omega

theorem code_ordering_witness :
    (17576 : Nat) < 18928 ↔ MainRs.lexLt [97] [97, 98] = true :=
  code_ordering [97] [97, 98] 17576 18928 rfl rfl

end WubiTable

namespace MainRs

lemma mem_of_getLast?_eq {α : Type} (l : List α) (x : α) (h : l.getLast? = some x) :
    x ∈ l := by
  obtain ⟨hne, rfl⟩ := List.mem_getLast?_eq_getLast (show x ∈ l.getLast? from h)
  exact List.getLast_mem hne

lemma lexLt_irrefl (l : List Nat) : ¬ (lexLt l l = true) := by
  induction l with
  | nil => simp [lexLt]
  | cons a t ih =>
    rw [WubiTable.lexLt_cons_iff]
    rintro (h | ⟨-, h⟩)
    · omega
    · exact ih h

lemma lexLt_trans : ∀ (a b c : List Nat), lexLt a b = true → lexLt b c = true →
    lexLt a c = true := by
  intro a
  induction a with
  | nil =>
    intro b c h1 h2
    cases b with
    | nil => simp [lexLt] at h1
    | cons bb tb =>
      cases c with
      | nil => rw [WubiTable.lexLt_nil_right] at h2; exact absurd h2 (by simp)
      | cons cc tc => exact WubiTable.lexLt_nil_cons cc tc
  | cons aa ta ih =>
    intro b c h1 h2
    cases b with
    | nil => rw [WubiTable.lexLt_nil_right] at h1; exact absurd h1 (by simp)
    | cons bb tb =>
      cases c with
      | nil => rw [WubiTable.lexLt_nil_right] at h2; exact absurd h2 (by simp)
      | cons cc tc =>
        rw [WubiTable.lexLt_cons_iff] at h1 h2 ⊢
        rcases h1 with h1 | ⟨he1, h1⟩ <;> rcases h2 with h2 | ⟨he2, h2⟩
        · exact Or.inl (by omega)
        · exact Or.inl (by omega)
        · exact Or.inl (by omega)
        · exact Or.inr ⟨by omega, ih tb tc h1 h2⟩

lemma lexLt_connex : ∀ (a b : List Nat), a ≠ b → lexLt a b = true ∨ lexLt b a = true := by
  intro a
  induction a with
  | nil =>
    intro b hne
    cases b with
    | nil => exact absurd rfl hne
    | cons bb tb => exact Or.inl (WubiTable.lexLt_nil_cons bb tb)
  | cons aa ta ih =>
    intro b hne
    cases b with
    | nil => exact Or.inr (WubiTable.lexLt_nil_cons aa ta)
    | cons bb tb =>
      by_cases hab : aa = bb
      · subst hab
        have hne2 : ta ≠ tb := fun h => hne (by rw [h])
        rcases ih tb hne2 with h | h
        · exact Or.inl ((WubiTable.lexLt_cons_iff _ _ _ _).2 (Or.inr ⟨rfl, h⟩))
        · exact Or.inr ((WubiTable.lexLt_cons_iff _ _ _ _).2 (Or.inr ⟨rfl, h⟩))
      · rcases Nat.lt_or_ge aa bb with h | h
        · exact Or.inl ((WubiTable.lexLt_cons_iff _ _ _ _).2 (Or.inl h))
        · have hlt : bb < aa := by omega
          exact Or.inr ((WubiTable.lexLt_cons_iff _ _ _ _).2 (Or.inl hlt))

lemma cmpLE_total (a b : WubiEntry) : (cmpLE a b || cmpLE b a) = true := by
  unfold cmpLE
  by_cases hp : a.phrase = b.phrase
  · rw [if_pos hp, if_pos hp.symm]
    simp
    omega
  · rw [if_neg hp, if_neg (Ne.symm hp)]
    rcases lexLt_connex _ _ hp with h | h <;> simp [h]

lemma cmpLE_trans (a b c : WubiEntry) (h1 : cmpLE a b = true) (h2 : cmpLE b c = true) :
    cmpLE a c = true := by
  unfold cmpLE at h1 h2 ⊢
  by_cases hab : a.phrase = b.phrase <;> by_cases hbc : b.phrase = c.phrase
  · rw [if_pos hab] at h1
    rw [if_pos hbc] at h2
    rw [if_pos (hab.trans hbc)]
    simp at h1 h2 ⊢
    omega
  · rw [if_pos hab] at h1
    rw [if_neg hbc] at h2
    rw [if_neg (fun h => hbc (hab.symm.trans h)), hab]
    exact h2
  · rw [if_neg hab] at h1
    rw [if_pos hbc] at h2
    rw [if_neg (fun h => hab (h.trans hbc.symm)), ← hbc]
    exact h1
  · rw [if_neg hab] at h1
    rw [if_neg hbc] at h2
    by_cases hac : a.phrase = c.phrase
    · exfalso
      have ht := lexLt_trans _ _ _ h1 h2
      rw [hac] at ht
      exact lexLt_irrefl _ ht
    · rw [if_neg hac]
      exact lexLt_trans _ _ _ h1 h2

lemma cmpLE_phrase (a b : WubiEntry) (h : cmpLE a b = true) :
    a.phrase = b.phrase ∨ lexLt a.phrase b.phrase = true := by
  unfold cmpLE at h
  by_cases hp : a.phrase = b.phrase
  · exact Or.inl hp
  · rw [if_neg hp] at h
    exact Or.inr h

lemma cmpLE_length (a b : WubiEntry) (hp : a.phrase = b.phrase) (h : cmpLE a b = true) :
    a.wubi_code.length ≤ b.wubi_code.length := by
  unfold cmpLE at h
  rw [if_pos hp] at h
  simpa using h

lemma revLoop_cons_new (e : WubiEntry) (rest : List WubiEntry) (last : WubiEntry)
    (cur : List Nat × List (List Nat)) (h : e.phrase ≠ last.phrase) :
    revLoop (e :: rest) last cur = cur :: revLoop rest e (e.phrase, [e.wubi_code]) := by
  simp only [revLoop]
  rw [if_pos h]

lemma revLoop_cons_skip (e : WubiEntry) (rest : List WubiEntry) (last : WubiEntry)
    (cur : List Nat × List (List Nat)) (h1 : e.phrase = last.phrase)
    (h2 : e.wubi_code = last.wubi_code) :
    revLoop (e :: rest) last cur = revLoop rest last cur := by
  simp only [revLoop]
  rw [if_neg (by simp [h1]), if_pos h2]

lemma revLoop_cons_app (e : WubiEntry) (rest : List WubiEntry) (last : WubiEntry)
    (cur : List Nat × List (List Nat)) (h1 : e.phrase = last.phrase)
    (h2 : ¬ (e.wubi_code = last.wubi_code)) :
    revLoop (e :: rest) last cur = revLoop rest e (cur.1, cur.2 ++ [e.wubi_code]) := by
  simp only [revLoop]
  rw [if_neg (by simp [h1]), if_neg h2]

lemma revLoop_spec (rest : List WubiEntry) :
    ∀ (last : WubiEntry) (codes : List (List Nat)),
    List.Pairwise (fun a b => cmpLE a b = true) (last :: rest) →
    codes ≠ [] →
    codes.getLast? = some last.wubi_code →
    List.Chain' (fun c1 c2 => c1.length ≤ c2.length) codes →
    (∃ cs t', revLoop rest last (last.phrase, codes) = (last.phrase, cs) :: t'
        ∧ ∃ ext, cs = codes ++ ext)
    ∧ List.Pairwise (fun l1 l2 => lexLt l1.1 l2.1 = true)
        (revLoop rest last (last.phrase, codes))
    ∧ (∀ l ∈ revLoop rest last (last.phrase, codes),
        l.1 = last.phrase ∨ ∃ e ∈ rest, l.1 = e.phrase)
    ∧ (∀ e ∈ last :: rest, ∃ l ∈ revLoop rest last (last.phrase, codes),
        l.1 = e.phrase ∧ e.wubi_code ∈ l.2)
    ∧ (∀ l ∈ revLoop rest last (last.phrase, codes),
        List.Chain' (fun c1 c2 => c1.length ≤ c2.length) l.2) := by
  induction rest with
  | nil =>
    intro last codes hsort hne hlast hchain
    simp only [revLoop]
    refine ⟨⟨codes, [], rfl, [], by simp⟩, List.pairwise_singleton _ _, ?_, ?_, ?_⟩
    · intro l hl
      rw [List.mem_singleton] at hl
      subst hl
      exact Or.inl rfl
    · intro e he
      rw [List.mem_singleton] at he
      subst he
      exact ⟨(e.phrase, codes), List.mem_singleton.2 rfl, rfl,
        mem_of_getLast?_eq _ _ hlast⟩
    · intro l hl
      rw [List.mem_singleton] at hl
      subst hl
      exact hchain
  | cons e rest ih =>
    intro last codes hsort hne hlast hchain
    have hle : cmpLE last e = true :=
      (List.pairwise_cons.1 hsort).1 e (List.mem_cons_self e rest)
    have hsort_tail : List.Pairwise (fun a b => cmpLE a b = true) (e :: rest) :=
      (List.pairwise_cons.1 hsort).2
    by_cases hp : e.phrase = last.phrase
    · by_cases hcode : e.wubi_code = last.wubi_code
      · -- duplicate entry: skipped
        rw [revLoop_cons_skip e rest last _ hp hcode]
        have hsort2 : List.Pairwise (fun a b => cmpLE a b = true) (last :: rest) :=
          List.pairwise_cons.2 ⟨fun x hx => (List.pairwise_cons.1 hsort).1 x
            (List.mem_cons_of_mem e hx), (List.pairwise_cons.1 hsort_tail).2⟩
        obtain ⟨hhead, hpw, hkeys, hcov, hch⟩ := ih last codes hsort2 hne hlast hchain
        refine ⟨hhead, hpw, ?_, ?_, hch⟩
        · intro l hl
          rcases hkeys l hl with h1 | ⟨e2, he2, h2⟩
          · exact Or.inl h1
          · exact Or.inr ⟨e2, List.mem_cons_of_mem _ he2, h2⟩
        intro x hx
        rcases List.mem_cons.1 hx with rfl | hx2
        · exact hcov x (List.mem_cons_self _ _)
        · rcases List.mem_cons.1 hx2 with rfl | hx3
          · obtain ⟨l, hl, hl1, hl2⟩ := hcov last (List.mem_cons_self _ _)
            exact ⟨l, hl, by rw [hp, hl1], by rw [hcode]; exact hl2⟩
          · exact hcov x (List.mem_cons_of_mem _ hx3)
      · -- same phrase, new code: appended
        rw [revLoop_cons_app e rest last _ hp hcode]
        have hlink : ∀ x ∈ codes.getLast?, ∀ y ∈ [e.wubi_code].head?,
            x.length ≤ y.length := by
          intro x hx y hy
          have hx2 : x = last.wubi_code := by
            rw [hlast] at hx
            exact (by simpa using hx : last.wubi_code = x).symm
          have hy2 : y = e.wubi_code := (by simpa using hy : e.wubi_code = y).symm
          subst hx2
          subst hy2
          exact cmpLE_length last e hp.symm hle
        have hch2 : List.Chain' (fun c1 c2 => c1.length ≤ c2.length)
            (codes ++ [e.wubi_code]) :=
          List.chain'_append.2 ⟨hchain, List.chain'_singleton _, hlink⟩
        obtain ⟨⟨cs, t', hR, ext, hcs⟩, hpw, hkeys, hcov, hch⟩ :=
          ih e (codes ++ [e.wubi_code]) hsort_tail (by simp)
            (List.getLast?_concat _) hch2
        have hRfix : revLoop rest e ((last.phrase, codes).1, (last.phrase, codes).2
            ++ [e.wubi_code]) = revLoop rest e (e.phrase, codes ++ [e.wubi_code]) := by
          rw [hp]
        rw [hRfix]
        refine ⟨⟨cs, t', by rw [hR, hp], [e.wubi_code] ++ ext, by
          rw [hcs, List.append_assoc]⟩, hpw, ?_, ?_, hch⟩
        · intro l hl
          rcases hkeys l hl with h1 | ⟨e2, he2, h2⟩
          · exact Or.inr ⟨e, List.mem_cons_self _ _, h1⟩
          · exact Or.inr ⟨e2, List.mem_cons_of_mem _ he2, h2⟩
        · intro x hx
          rcases List.mem_cons.1 hx with rfl | hx2
          · refine ⟨(e.phrase, cs), by rw [hR]; exact List.mem_cons_self _ _,
              hp, ?_⟩
            rw [hcs]
            exact List.mem_append.2 (Or.inl (List.mem_append.2
              (Or.inl (mem_of_getLast?_eq _ _ hlast))))
          · exact hcov x hx2
    · -- new phrase: pending line flushed
      rw [revLoop_cons_new e rest last _ hp]
      obtain ⟨⟨cs, t', hR, ext, hcs⟩, hpw, hkeys, hcov, hch⟩ :=
        ih e [e.wubi_code] hsort_tail (by simp) rfl (List.chain'_singleton _)
      have hlt : lexLt last.phrase e.phrase = true := by
        rcases cmpLE_phrase last e hle with h | h
        · exact absurd h.symm hp
        · exact h
      have hbound : ∀ l ∈ revLoop rest e (e.phrase, [e.wubi_code]),
          lexLt last.phrase l.1 = true := by
        intro l hl
        rcases hkeys l hl with h1 | ⟨e2, he2, h2⟩
        · rw [h1]
          exact hlt
        · have hle2 : cmpLE e e2 = true :=
            (List.pairwise_cons.1 hsort_tail).1 e2 he2
          rcases cmpLE_phrase e e2 hle2 with h3 | h3
          · rw [h2, ← h3]
            exact hlt
          · rw [h2]
            exact lexLt_trans _ _ _ hlt h3
      refine ⟨⟨codes, _, rfl, [], by simp⟩, ?_, ?_, ?_, ?_⟩
      · exact List.pairwise_cons.2 ⟨fun l hl => hbound l hl, hpw⟩
      · intro l hl
        rcases List.mem_cons.1 hl with rfl | hl2
        · exact Or.inl rfl
        · rcases hkeys l hl2 with h1 | ⟨e2, he2, h2⟩
          · exact Or.inr ⟨e, List.mem_cons_self _ _, h1⟩
          · exact Or.inr ⟨e2, List.mem_cons_of_mem _ he2, h2⟩
      · intro x hx
        rcases List.mem_cons.1 hx with rfl | hx2
        · exact ⟨(x.phrase, codes), List.mem_cons_self _ _, rfl,
            mem_of_getLast?_eq _ _ hlast⟩
        · obtain ⟨l, hl, hl1, hl2⟩ := hcov x hx2
          exact ⟨l, List.mem_cons_of_mem _ hl, hl1, hl2⟩
      · intro l hl
        rcases List.mem_cons.1 hl with rfl | hl2
        · exact hchain
        · exact hch l hl2

end MainRs

namespace MainRs

/-- C9: for every entry list, the reverse-table writer produces lines
whose keys are strictly ascending in byte-wise lexicographic order (hence
a character key and a phrase key that are the same string share exactly
one joined line), every entry's code appears in the line of its key, and
within each line the codes are ordered by non-decreasing length (shorter
simplified codes before the longer full code). -/
theorem reverse_table_emission (entries : List WubiEntry) :
    List.Pairwise (fun l1 l2 => lexLt l1.1 l2.1 = true) (write_reverse_table entries)
    ∧ (∀ e ∈ entries, ∃ l ∈ write_reverse_table entries,
        l.1 = e.phrase ∧ e.wubi_code ∈ l.2)
    ∧ (∀ l ∈ write_reverse_table entries,
        List.Chain' (fun c1 c2 => c1.length ≤ c2.length) l.2) := by
  have hperm := List.mergeSort_perm entries cmpLE
  have hsorted := List.sorted_mergeSort cmpLE_trans cmpLE_total entries
  cases hs : List.mergeSort entries cmpLE with
  | nil =>
    have hwrt : write_reverse_table entries = [] := by
      simp only [write_reverse_table, hs]
    rw [hwrt]
    rw [hs] at hperm
    have hent : entries = [] := (hperm.symm.eq_nil)
    subst hent
    refine ⟨List.Pairwise.nil, ?_, by simp⟩
    intro e he
    simp at he
  | cons first rest =>
    rw [hs] at hperm hsorted
    have hwrt : write_reverse_table entries
        = revLoop rest first (first.phrase, [first.wubi_code]) := by
      simp only [write_reverse_table, hs]
    rw [hwrt]
    obtain ⟨hhead, hpw, hkeys, hcov, hch⟩ :=
      revLoop_spec rest first [first.wubi_code] hsorted (by simp) rfl
        (List.chain'_singleton _)
    refine ⟨hpw, ?_, hch⟩
    intro e he
    exact hcov e (hperm.mem_iff.2 he)

end MainRs

namespace WubiTable

lemma pairwise_of_forall_rel {α : Type} (R : α → α → Prop) (h : ∀ a b, R a b)
    (l : List α) : List.Pairwise R l := by
  induction l with
  | nil => exact List.Pairwise.nil
  | cons a t ih => exact List.pairwise_cons.2 ⟨fun b _ => h a b, ih⟩

lemma pairwise_le_range_flatMap {α : Type} (N : Nat) (f : Nat → List α) :
    List.Pairwise (fun p q => p.1 ≤ q.1)
      ((List.range N).flatMap (fun i => (f i).map (fun a => (i, a)))) := by
  induction N with
  | zero => simp
  | succ n ihn =>
    rw [List.range_succ, List.flatMap_append]
    refine List.pairwise_append.2 ⟨ihn, ?_, ?_⟩
    · simp only [List.flatMap_cons, List.flatMap_nil, List.append_nil]
      rw [List.pairwise_map]
      exact pairwise_of_forall_rel _ (fun a b => le_refl n) _
    · intro x hx y hy
      obtain ⟨i, hi, hxi⟩ := List.mem_flatMap.1 hx
      obtain ⟨a, _, rfl⟩ := List.mem_map.1 hxi
      simp only [List.flatMap_cons, List.flatMap_nil, List.append_nil] at hy
      obtain ⟨b, _, rfl⟩ := List.mem_map.1 hy
      have : i < n := List.mem_range.1 hi
      simp
      omega

lemma filter_range_flatMap {α : Type} (N c : Nat) (f : Nat → List α) :
    ((List.range N).flatMap (fun i => (f i).map (fun a => (i, a)))).filter
      (fun p => p.1 == c)
    = if c < N then (f c).map (fun a => (c, a)) else [] := by
  induction N with
  | zero => simp
  | succ n ihn =>
    rw [List.range_succ, List.flatMap_append, List.filter_append, ihn]
    simp only [List.flatMap_cons, List.flatMap_nil, List.append_nil]
    rw [List.filter_map]
    by_cases hnc : n = c
    · subst hnc
      have hcomp : ((fun (p : Nat × α) => p.1 == n) ∘ (fun (a : α) => ((n : Nat), a)))
          = fun _ => true := by
        funext a
        simp
      rw [hcomp, List.filter_true, if_neg (by omega), if_pos (by omega)]
      simp
    · have hcomp : ((fun (p : Nat × α) => p.1 == c) ∘ (fun (a : α) => ((n : Nat), a)))
          = fun _ => false := by
        funext a
        simp [hnc]
      rw [hcomp, List.filter_false]
      by_cases hcn : c < n
      · rw [if_pos hcn, if_pos (by omega)]
        simp
      · rw [if_neg hcn, if_neg (by omega)]
        simp

/-- C6: the mobile forward table writes one line per forward pair in
stream order; the forward pair stream is in ascending code order; the
pairs at one code are exactly the simplified character payload, if any,
followed by the filtered full phrases, so the simplified character is
emitted before the full phrases that share its code. -/
theorem mobile_forward_emission (t : Table) :
    t.iosOutput = t.forwardPairs.map (fun cp => iosLine cp.1 cp.2)
    ∧ List.Pairwise (fun p q => p.1 ≤ q.1) t.forwardPairs
    ∧ (∀ c, t.forwardPairs.filter (fun p => p.1 == c)
        = if c < INDEX_UPPER_BOUND
          then (t.forwardPayloadsAt c).map (fun payload => (c, payload)) else [])
    ∧ (∀ c, t.forwardPayloadsAt c
        = ((t.simplified.code_to_char c).map (fun ch => ([ch] : List Char))).toList
          ++ t.filteredPhrasesAt c) :=
  ⟨rfl, pairwise_le_range_flatMap _ _, fun c => filter_range_flatMap _ c _, fun _ => rfl⟩

end WubiTable
